import Mathlib

/-
Verification of the pss-report-compiler PDF pipeline.

Shallow embedding of `pdf_inserter.py` and `worker.py`:
a PDF is its list of pages (opaque content blocks, modelled as naturals);
the filesystem is a pure map from path to the pages a reader would
enumerate at that path; Python dicts are insertion-ordered association
lists with first-match lookup (keys are unique in a dict, so first-match
agrees with dict lookup); Python exceptions are `Except` values.
-/

namespace PssReport

/-- A PDF page: an opaque content block copied verbatim, modelled by an id. -/
abbrev Page := Nat

/-- A filesystem path, modelled as its string. -/
abbrev Path := String

/-- The filesystem at assembly time: each path names a readable PDF, given as
the list of pages `pypdf.PdfReader` would enumerate there. -/
abbrev FileSystem := Path → List Page

/-- The `insert_pdfs` argument: keyword to ordered list of PDF paths, in the
dict's insertion order. -/
abbrev InsertMap := List (String × List Path)

/-- The `keyword_page_map` argument: keyword to the page number it was found
on.  Values are integers, as Python ints are. -/
abbrev KeywordPageMap := List (String × Int)

/-- Python dict read access (`d[k]`, and `k in d` via `isSome`) on an
insertion-ordered association list: the first matching key wins. -/
def lookupKey {β : Type} : List (String × β) → String → Option β
  | [], _ => none
  | (k, v) :: rest, key => if k = key then some v else lookupKey rest key

/-- The guard `keyword in keyword_page_map and keyword_page_map[keyword] == page_num`
from `insert_pdfs_at_keywords`. -/
def keywordMatches (kpm : KeywordPageMap) (keyword : String) (pageNum : Nat) : Bool :=
  match lookupKey kpm keyword with
  | some v => decide (v = (pageNum : Int))
  | none => false

/-- Innermost loop of `insert_pdfs_at_keywords`: for each path in
`insert_pdf_paths`, open it and add every one of its pages to the writer. -/
def writeInsertFiles (fs : FileSystem) (paths : List Path) (writer : List Page) : List Page :=
  paths.foldl (fun w p => w ++ fs p) writer

/-- Middle loop of `insert_pdfs_at_keywords`: after copying page `pageNum`,
walk `insert_pdfs.items()` and, for every keyword anchored at this page,
append that keyword's insert files. -/
def processKeywords (fs : FileSystem) (insertPdfs : InsertMap) (kpm : KeywordPageMap)
    (pageNum : Nat) (writer : List Page) : List Page :=
  insertPdfs.foldl
    (fun w kv => if keywordMatches kpm kv.1 pageNum then writeInsertFiles fs kv.2 w else w)
    writer

/-- `insert_pdfs_at_keywords` from `pdf_inserter.py`: iterate the main PDF's
pages by index, add each to the output writer, then run the keyword loop for
that page.  `main` is the page list `PdfReader(main_pdf_path).pages`; the
result is the page sequence written to `output_pdf_path`. -/
def insert_pdfs_at_keywords (fs : FileSystem) (main : List Page)
    (insertPdfs : InsertMap) (kpm : KeywordPageMap) : List Page :=
  (List.range main.length).foldl
    (fun w pageNum => processKeywords fs insertPdfs kpm pageNum (w ++ [main.getD pageNum 0]))
    []

/-- All pages contributed by one insert set: every file's pages, in the
list's file order, each file's internal page order kept. -/
def insertSetPages (fs : FileSystem) (paths : List Path) : List Page :=
  (paths.map fs).flatten

/-- Stated algorithm, from the spec's words: the contiguous run appended
immediately after anchor page `i` is the concatenation, over the labels whose
anchor equals `i` in the mapping's order, of their insert sets' pages. -/
def insertsForPage (fs : FileSystem) (insertPdfs : InsertMap) (kpm : KeywordPageMap)
    (i : Nat) : List Page :=
  ((insertPdfs.filter (fun kv => keywordMatches kpm kv.1 i)).map
    (fun kv => insertSetPages fs kv.2)).flatten

/-- Stated assembly, from the spec's words: the main PDF's pages in their
original relative order, each page followed by its contiguous insert run. -/
def assembleSpec (fs : FileSystem) (main : List Page)
    (insertPdfs : InsertMap) (kpm : KeywordPageMap) : List Page :=
  (main.enum.map (fun p => p.2 :: insertsForPage fs insertPdfs kpm p.1)).flatten

theorem writeInsertFiles_eq (fs : FileSystem) (paths : List Path) (writer : List Page) :
    writeInsertFiles fs paths writer = writer ++ insertSetPages fs paths := by
  induction paths generalizing writer with
  | nil => simp [writeInsertFiles, insertSetPages]
  | cons p ps ih =>
    simp only [writeInsertFiles, List.foldl_cons] at *
    rw [ih (writer ++ fs p)]
    simp [insertSetPages, List.append_assoc]

theorem processKeywords_eq (fs : FileSystem) (insertPdfs : InsertMap) (kpm : KeywordPageMap)
    (i : Nat) (writer : List Page) :
    processKeywords fs insertPdfs kpm i writer = writer ++ insertsForPage fs insertPdfs kpm i := by
  induction insertPdfs generalizing writer with
  | nil => simp [processKeywords, insertsForPage]
  | cons kv rest ih =>
    simp only [processKeywords, List.foldl_cons] at *
    by_cases h : keywordMatches kpm kv.1 i
    · rw [if_pos h, ih (writeInsertFiles fs kv.2 writer), writeInsertFiles_eq]
      simp [insertsForPage, List.filter_cons, h, List.append_assoc]
    · rw [if_neg h, ih writer]
      simp [insertsForPage, List.filter_cons, h]

theorem insert_eq_assembleSpec (fs : FileSystem) (main : List Page)
    (insertPdfs : InsertMap) (kpm : KeywordPageMap) :
    insert_pdfs_at_keywords fs main insertPdfs kpm = assembleSpec fs main insertPdfs kpm := by
  induction main using List.reverseRecOn with
  | nil => simp [insert_pdfs_at_keywords, assembleSpec]
  | append_singleton l x ih =>
    unfold insert_pdfs_at_keywords at *
    rw [List.length_append, List.length_singleton, List.range_succ, List.foldl_append]
    have hstep : (List.range l.length).foldl
        (fun w pageNum => processKeywords fs insertPdfs kpm pageNum (w ++ [(l ++ [x]).getD pageNum 0])) [] =
        (List.range l.length).foldl
        (fun w pageNum => processKeywords fs insertPdfs kpm pageNum (w ++ [l.getD pageNum 0])) [] := by
      apply List.foldl_ext
      intro w i hi
      have hlt : i < l.length := List.mem_range.mp hi
      have : (l ++ [x]).getD i 0 = l.getD i 0 := by
        simp [List.getD_eq_getElem?_getD, List.getElem?_append, hlt]
      rw [this]
    rw [hstep, ih]
    have hx : (l ++ [x]).getD l.length 0 = x := by
      simp [List.getD_eq_getElem?_getD, List.getElem?_concat_length]
    simp only [List.foldl_cons, List.foldl_nil, hx]
    rw [processKeywords_eq]
    unfold assembleSpec
    rw [show l ++ [x] = l ++ [x] from rfl]
    have henum : (l ++ [x]).enum = l.enum ++ [(l.length, x)] := by
      simp [List.enum, List.enumFrom_append]
    rw [henum, List.map_append, List.flatten_append]
    simp [List.append_assoc]

/-- Claim C1: for every main PDF, insert-set mapping and keyword-page map, the
output of `insert_pdfs_at_keywords` consists of the main PDF's pages in their
original relative order, where immediately after each anchor page the matched
label's insert PDFs appear as one contiguous run, files in the list's given
order and each file's internal page order preserved. -/
theorem c1_insert_output_order (fs : FileSystem) (main : List Page)
    (insertPdfs : InsertMap) (kpm : KeywordPageMap) :
    insert_pdfs_at_keywords fs main insertPdfs kpm = assembleSpec fs main insertPdfs kpm :=
  insert_eq_assembleSpec fs main insertPdfs kpm

/-- Whether an anchor value is a valid page index of an `n`-page document. -/
def validAnchor (v : Int) (n : Nat) : Bool :=
  decide (0 ≤ v) && decide (v < (n : Int))

/-- Page contribution asserted by claim C2 as stated: every label present in
both the insert-set mapping and the keyword-page map contributes the total
page count of its listed files. -/
def claimedExtraPages (fs : FileSystem) (insertPdfs : InsertMap) (kpm : KeywordPageMap) : Nat :=
  (insertPdfs.map (fun kv =>
    if (lookupKey kpm kv.1).isSome then (insertSetPages fs kv.2).length else 0)).sum

/-- Amended page contribution: a label contributes only when its anchor is a
valid page index of the `n`-page main document. -/
def matchedExtraPages (fs : FileSystem) (insertPdfs : InsertMap) (kpm : KeywordPageMap)
    (n : Nat) : Nat :=
  (insertPdfs.map (fun kv =>
    match lookupKey kpm kv.1 with
    | some v => if validAnchor v n then (insertSetPages fs kv.2).length else 0
    | none => 0)).sum

theorem insertsForPage_cons (fs : FileSystem) (kv : String × List Path)
    (insertPdfs : InsertMap) (kpm : KeywordPageMap) (i : Nat) :
    insertsForPage fs (kv :: insertPdfs) kpm i =
      (if keywordMatches kpm kv.1 i then insertSetPages fs kv.2 else [])
        ++ insertsForPage fs insertPdfs kpm i := by
  by_cases h : keywordMatches kpm kv.1 i
  · simp [insertsForPage, List.filter_cons, h]
  · simp [insertsForPage, List.filter_cons, h]

theorem validAnchor_iff (v : Int) (n : Nat) :
    validAnchor v n = true ↔ (0 ≤ v ∧ v < (n : Int)) := by
  simp [validAnchor]

theorem sum_indicator_range (v : Int) (c : Nat) :
    ∀ n : Nat, ((List.range n).map (fun i : Nat => if v = (i : Int) then c else 0)).sum
      = if validAnchor v n then c else 0 := by
  intro n
  induction n with
  | zero =>
    have h : validAnchor v 0 = false := by
      apply Bool.eq_false_iff.mpr
      intro hc
      rcases (validAnchor_iff v 0).mp hc with ⟨ha, hb⟩
      omega
    simp [h]
  | succ n ih =>
    rw [List.range_succ, List.map_append, List.sum_append, ih]
    simp only [List.map_cons, List.map_nil, List.sum_cons, List.sum_nil, Nat.add_zero]
    rcases Decidable.em (v = (n : Int)) with hv | hv
    · have h1 : validAnchor v n = false := by
        apply Bool.eq_false_iff.mpr
        intro hc
        rcases (validAnchor_iff v n).mp hc with ⟨ha, hb⟩
        omega
      have h2 : validAnchor v (n + 1) = true := by
        apply (validAnchor_iff v (n + 1)).mpr
        push_cast
        omega
      rw [if_pos hv, h1, h2]
      simp
    · have step : (if v = ((n : Nat) : Int) then c else 0) = 0 := by simp [hv]
      rw [step]
      rcases hb : validAnchor v n with _ | _
      · have h2 : validAnchor v (n + 1) = false := by
          apply Bool.eq_false_iff.mpr
          intro hc
          rcases (validAnchor_iff v (n + 1)).mp hc with ⟨ha, hlt⟩
          have hin : 0 ≤ v ∧ v < (n : Int) := by
            refine ⟨ha, ?_⟩
            push_cast at hlt
            omega
          exact absurd ((validAnchor_iff v n).mpr hin) (by simp [hb])
        simp [hb, h2]
      · have h2 : validAnchor v (n + 1) = true := by
          rcases (validAnchor_iff v n).mp hb with ⟨ha, hlt⟩
          apply (validAnchor_iff v (n + 1)).mpr
          push_cast
          omega
        simp [hb, h2]

theorem sum_insertsForPage_length (fs : FileSystem) (kpm : KeywordPageMap) (n : Nat) :
    ∀ insertPdfs : InsertMap,
      ((List.range n).map (fun i => (insertsForPage fs insertPdfs kpm i).length)).sum
        = matchedExtraPages fs insertPdfs kpm n := by
  intro insertPdfs
  induction insertPdfs with
  | nil => simp [insertsForPage, matchedExtraPages]
  | cons kv rest ih =>
    have hsplit : ∀ i, (insertsForPage fs (kv :: rest) kpm i).length
        = (if keywordMatches kpm kv.1 i then (insertSetPages fs kv.2).length else 0)
          + (insertsForPage fs rest kpm i).length := by
      intro i
      rw [insertsForPage_cons, List.length_append]
      by_cases h : keywordMatches kpm kv.1 i <;> simp [h]
    have hmap : (List.range n).map (fun i => (insertsForPage fs (kv :: rest) kpm i).length)
        = (List.range n).map (fun i =>
            (if keywordMatches kpm kv.1 i then (insertSetPages fs kv.2).length else 0)
              + (insertsForPage fs rest kpm i).length) := by
      apply List.map_congr_left
      intro i _
      exact hsplit i
    rw [hmap, List.sum_map_add, ih]
    have hfirst : ((List.range n).map (fun i =>
        if keywordMatches kpm kv.1 i then (insertSetPages fs kv.2).length else 0)).sum
        = (match lookupKey kpm kv.1 with
           | some v => if validAnchor v n then (insertSetPages fs kv.2).length else 0
           | none => 0) := by
      rcases hkv : lookupKey kpm kv.1 with _ | v
      · simp [keywordMatches, hkv]
      · have : ∀ i : Nat, keywordMatches kpm kv.1 i = decide (v = (i : Int)) := by
          intro i
          simp [keywordMatches, hkv]
        calc ((List.range n).map (fun i =>
              if keywordMatches kpm kv.1 i then (insertSetPages fs kv.2).length else 0)).sum
            = ((List.range n).map (fun i : Nat =>
              if v = (i : Int) then (insertSetPages fs kv.2).length else 0)).sum := by
              apply congrArg
              apply List.map_congr_left
              intro i _
              rw [this i]
              by_cases h : v = (i : Int) <;> simp [h]
          _ = if validAnchor v n then (insertSetPages fs kv.2).length else 0 :=
              sum_indicator_range v (insertSetPages fs kv.2).length n
    rw [hfirst]
    simp [matchedExtraPages]

/-- Claim C2 as stated is false: with a one-page main PDF and label Z present
in both maps but anchored at page 5, the code inserts nothing, while the claim
predicts the insert file's page to be added. -/
def fsC2 : FileSystem := fun p => if p = "ins.pdf" then [9] else []

theorem c2_counterexample :
    ¬ ((insert_pdfs_at_keywords fsC2 [7] [("Z", ["ins.pdf"])] [("Z", 5)]).length
      = ([7] : List Page).length + claimedExtraPages fsC2 [("Z", ["ins.pdf"])] [("Z", 5)]) := by
  decide

/-- Claim C2, amended: the output page count equals the main page count plus
the total page count of the insert sets of the labels present in both maps
whose anchor is a valid page index of the main PDF; labels with no anchor or
an out-of-range anchor contribute zero. -/
theorem c2_page_count (fs : FileSystem) (main : List Page)
    (insertPdfs : InsertMap) (kpm : KeywordPageMap) :
    (insert_pdfs_at_keywords fs main insertPdfs kpm).length
      = main.length + matchedExtraPages fs insertPdfs kpm main.length := by
  rw [insert_eq_assembleSpec]
  unfold assembleSpec
  rw [List.length_flatten, List.map_map]
  have hone : (List.map (List.length ∘ fun p => p.2 :: insertsForPage fs insertPdfs kpm p.1)
      main.enum).sum
      = (List.map (fun p : Nat × Page => 1 + (insertsForPage fs insertPdfs kpm p.1).length)
      main.enum).sum := by
    apply congrArg
    apply List.map_congr_left
    intro p _
    simp [Nat.add_comm]
  rw [hone, List.sum_map_add]
  have hconst : (List.map (fun _ : Nat × Page => 1) main.enum).sum = main.length := by
    simp [List.map_const]
  have hidx : (List.map (fun p : Nat × Page => (insertsForPage fs insertPdfs kpm p.1).length)
      main.enum).sum
      = ((List.range main.length).map
          (fun i => (insertsForPage fs insertPdfs kpm i).length)).sum := by
    have : (fun p : Nat × Page => (insertsForPage fs insertPdfs kpm p.1).length)
        = (fun i => (insertsForPage fs insertPdfs kpm i).length) ∘ Prod.fst := rfl
    rw [this, ← List.map_map, List.enum_map_fst]
  rw [hconst, hidx, sum_insertsForPage_length]

theorem lookupKey_append_some {β : Type} (l₁ l₂ : List (String × β)) (key : String)
    (w : β) (h : lookupKey l₁ key = some w) :
    lookupKey (l₁ ++ l₂) key = some w := by
  induction l₁ with
  | nil => simp [lookupKey] at h
  | cons kv rest ih =>
    rcases kv with ⟨k, v⟩
    by_cases hk : k = key
    · simp [lookupKey, hk] at h ⊢
      exact h
    · simp only [lookupKey, if_neg hk, List.cons_append] at h ⊢
      exact ih h

theorem lookupKey_append_none {β : Type} (l₁ l₂ : List (String × β)) (key : String)
    (h : lookupKey l₁ key = none) :
    lookupKey (l₁ ++ l₂) key = lookupKey l₂ key := by
  induction l₁ with
  | nil => simp
  | cons kv rest ih =>
    rcases kv with ⟨k, v⟩
    by_cases hk : k = key
    · simp [lookupKey, hk] at h
    · simp only [lookupKey, if_neg hk, List.cons_append] at h ⊢
      exact ih h

theorem insertsForPage_congr (fs : FileSystem) (insertPdfs : InsertMap)
    (kpm₁ kpm₂ : KeywordPageMap) (i : Nat)
    (h : ∀ kv ∈ insertPdfs, keywordMatches kpm₁ kv.1 i = keywordMatches kpm₂ kv.1 i) :
    insertsForPage fs insertPdfs kpm₁ i = insertsForPage fs insertPdfs kpm₂ i := by
  unfold insertsForPage
  rw [List.filter_congr h]

theorem fst_lt_of_mem_enum {α : Type} {l : List α} {p : Nat × α} (h : p ∈ l.enum) :
    p.1 < l.length := by
  have : p.1 ∈ l.enum.map Prod.fst := List.mem_map_of_mem Prod.fst h
  rw [List.enum_map_fst] at this
  exact List.mem_range.mp this

/-- Claim C5: a label whose insert list is non-empty but which is absent from
the keyword-page map raises no error and contributes no pages: the output is
identical to the output with that label removed from the insert-set mapping.
(The model is total, so no error is possible; the identity is proved.) -/
theorem c5_missing_anchor_dropped (fs : FileSystem) (main : List Page)
    (insertPdfs : InsertMap) (kpm : KeywordPageMap) (label : String)
    (h : lookupKey kpm label = none) :
    insert_pdfs_at_keywords fs main insertPdfs kpm
      = insert_pdfs_at_keywords fs main (insertPdfs.filter (fun kv => kv.1 != label)) kpm := by
  rw [insert_eq_assembleSpec, insert_eq_assembleSpec]
  unfold assembleSpec
  apply congrArg
  apply List.map_congr_left
  intro p _
  apply congrArg
  induction insertPdfs with
  | nil => simp
  | cons kv rest ih =>
    by_cases hk : kv.1 = label
    · have hmatch : keywordMatches kpm kv.1 p.1 = false := by
        simp [keywordMatches, hk, h]
      have hfilter : (kv :: rest).filter (fun kv => kv.1 != label)
          = rest.filter (fun kv => kv.1 != label) := by
        simp [List.filter_cons, hk]
      rw [hfilter, insertsForPage_cons, hmatch, ih]
      simp
    · have hfilter : (kv :: rest).filter (fun kv => kv.1 != label)
          = kv :: rest.filter (fun kv => kv.1 != label) := by
        simp [List.filter_cons, hk]
      rw [hfilter, insertsForPage_cons, insertsForPage_cons, ih]

def fsC5 : FileSystem := fun p => if p = "z.pdf" then [5, 6] else []

theorem c5_missing_anchor_dropped_witness :
    insert_pdfs_at_keywords fsC5 [1, 2] [("Z", ["z.pdf"])] []
      = insert_pdfs_at_keywords fsC5 [1, 2]
          ([("Z", ["z.pdf"])].filter (fun kv => kv.1 != "Z")) [] :=
  c5_missing_anchor_dropped fsC5 [1, 2] [("Z", ["z.pdf"])] [] "Z" rfl

theorem insertsForPage_append (fs : FileSystem) (a b : InsertMap)
    (kpm : KeywordPageMap) (i : Nat) :
    insertsForPage fs (a ++ b) kpm i = insertsForPage fs a kpm i ++ insertsForPage fs b kpm i := by
  simp [insertsForPage, List.filter_append]

/-- Claim C6: when several labels' anchors equal the same page index, the
keyword loop appends their insert sets after that page in the iteration
(insertion) order of the `insert_pdfs` mapping: a label occurring earlier in
the mapping has its pages written before one occurring later. -/
theorem c6_same_page_mapping_order (fs : FileSystem) (kpm : KeywordPageMap) (i : Nat)
    (pre mid post : InsertMap) (k1 : String) (ps1 : List Path) (k2 : String) (ps2 : List Path)
    (writer : List Page)
    (h1 : keywordMatches kpm k1 i = true) (h2 : keywordMatches kpm k2 i = true) :
    processKeywords fs (pre ++ (k1, ps1) :: mid ++ (k2, ps2) :: post) kpm i writer
      = writer ++ insertsForPage fs pre kpm i ++ insertSetPages fs ps1
          ++ insertsForPage fs mid kpm i ++ insertSetPages fs ps2
          ++ insertsForPage fs post kpm i := by
  rw [processKeywords_eq]
  rw [show pre ++ (k1, ps1) :: mid ++ (k2, ps2) :: post
      = pre ++ (((k1, ps1) :: mid) ++ ((k2, ps2) :: post)) by simp]
  rw [insertsForPage_append, insertsForPage_append, insertsForPage_cons, insertsForPage_cons,
    h1, h2]
  simp [List.append_assoc]

def fsC6 : FileSystem := fun p =>
  if p = "a.pdf" then [10] else if p = "b.pdf" then [20] else []

theorem c6_same_page_mapping_order_witness :
    processKeywords fsC6 ([] ++ ("A", ["a.pdf"]) :: [] ++ ("B", ["b.pdf"]) :: [])
        [("A", 0), ("B", 0)] 0 [0]
      = [0] ++ insertsForPage fsC6 [] [("A", 0), ("B", 0)] 0 ++ insertSetPages fsC6 ["a.pdf"]
          ++ insertsForPage fsC6 [] [("A", 0), ("B", 0)] 0 ++ insertSetPages fsC6 ["b.pdf"]
          ++ insertsForPage fsC6 [] [("A", 0), ("B", 0)] 0 :=
  c6_same_page_mapping_order fsC6 [("A", 0), ("B", 0)] 0 [] [] []
    "A" ["a.pdf"] "B" ["b.pdf"] [0] (by decide) (by decide)

theorem keywordMatches_extraneous (pre post : KeywordPageMap) (k : String) (v : Int)
    (n : Nat) (key : String) (i : Nat)
    (hpre : lookupKey pre k = none) (hpost : lookupKey post k = none)
    (hk : ¬ (0 ≤ v ∧ v < (n : Int)) ∨ key ≠ k) (hi : i < n) :
    keywordMatches (pre ++ (k, v) :: post) key i = keywordMatches (pre ++ post) key i := by
  rcases hcase : lookupKey pre key with _ | w
  · rw [keywordMatches, keywordMatches,
      lookupKey_append_none pre ((k, v) :: post) key hcase,
      lookupKey_append_none pre post key hcase]
    by_cases hkey : k = key
    · subst hkey
      rw [show lookupKey ((k, v) :: post) k = some v by simp [lookupKey]]
      rw [hpost]
      rcases hk with hk | hk
      · simp only []
        apply decide_eq_false
        intro hvi
        apply hk
        subst hvi
        constructor
        · exact Int.ofNat_nonneg i
        · exact_mod_cast hi
      · exact absurd rfl hk
    · rw [show lookupKey ((k, v) :: post) key = lookupKey post key by
        simp [lookupKey, hkey]]
  · rw [keywordMatches, keywordMatches,
      lookupKey_append_some pre ((k, v) :: post) key w hcase,
      lookupKey_append_some pre post key w hcase]

/-- Claim C10: an extraneous keyword-page-map entry — one whose value is not
a valid page index of the main PDF, or one whose key has no list in the
insert-set mapping — causes no insertion and no error: the output equals the
output without that entry.  (Dict keys are unique, so the key is required not
to occur elsewhere in the map.) -/
theorem c10_extraneous_entries_ignored (fs : FileSystem) (main : List Page)
    (insertPdfs : InsertMap) (pre post : KeywordPageMap) (k : String) (v : Int)
    (hv : ¬ (0 ≤ v ∧ v < (main.length : Int)) ∨ ∀ kv ∈ insertPdfs, kv.1 ≠ k)
    (hpre : lookupKey pre k = none) (hpost : lookupKey post k = none) :
    insert_pdfs_at_keywords fs main insertPdfs (pre ++ (k, v) :: post)
      = insert_pdfs_at_keywords fs main insertPdfs (pre ++ post) := by
  rw [insert_eq_assembleSpec, insert_eq_assembleSpec]
  unfold assembleSpec
  apply congrArg
  apply List.map_congr_left
  intro p hp
  apply congrArg
  apply insertsForPage_congr
  intro kv hkv
  apply keywordMatches_extraneous pre post k v main.length kv.1 p.1 hpre hpost
  · rcases hv with hv | hv
    · exact Or.inl hv
    · exact Or.inr (hv kv hkv)
  · exact fst_lt_of_mem_enum hp

def fsC10 : FileSystem := fun p => if p = "z.pdf" then [3] else []

theorem c10_extraneous_entries_ignored_witness :
    insert_pdfs_at_keywords fsC10 [7] [("Z", ["z.pdf"])] ([] ++ ("Z", 5) :: [])
      = insert_pdfs_at_keywords fsC10 [7] [("Z", ["z.pdf"])] ([] ++ []) :=
  c10_extraneous_entries_ignored fsC10 [7] [("Z", ["z.pdf"])] [] [] "Z" 5
    (Or.inl (by decide)) rfl rfl

/-- A PDF as pdfplumber sees it: per page, the result of `extract_text()` —
`none` models Python `None`, `some ""` an empty extraction. -/
abbrev TextPdf := List (Option String)

/-- Python's substring test `keyword in text`: exact, case-sensitive. -/
def containsSub (text keyword : String) : Bool :=
  decide (List.IsInfix keyword.data text.data)

/-- Truthiness of one page's extraction together with the substring test:
`if text:` skips `None` and the empty string; otherwise `keyword in text`. -/
def pageHit (keyword : String) (otext : Option String) : Bool :=
  match otext with
  | none => false
  | some t => if t = "" then false else containsSub t keyword

/-- Body of the reverse-scan loop of `find_keywords_in_pdf`, for one
enumerated page `ip = (i, extract_text result)`: skip falsy text (`if text:`),
otherwise record `pdf_pages_len - 1 - i` for every keyword found in the text
that is not yet in the map. -/
def locatorStep (keywords : List String) (n : Nat) (kpm : List (String × Nat))
    (ip : Nat × Option String) : List (String × Nat) :=
  match ip.2 with
  | none => kpm
  | some text =>
    if text = "" then kpm
    else keywords.foldl
      (fun kpm keyword =>
        if containsSub text keyword && (lookupKey kpm keyword).isNone
        then kpm ++ [(keyword, n - 1 - ip.1)] else kpm)
      kpm

/-- `find_keywords_in_pdf` from `pdf_inserter.py`: scan the pages in reverse
order, running the recording step on each enumerated page. -/
def find_keywords_in_pdf (pdf : TextPdf) (keywords : List String) : List (String × Nat) :=
  (pdf.reverse.enum).foldl (locatorStep keywords pdf.length) []

/-- Claim-side occurrence predicate: the keyword occurs in page `i`'s
extracted text. -/
def keywordOnPage (pdf : TextPdf) (keyword : String) (i : Nat) : Bool :=
  pageHit keyword (pdf.getD i none)

/-- The spec's words: each requested label that occurs on some page maps to
the highest zero-based page index on which it occurs; a label found on no
page is omitted. -/
def lastKeywordPage (pdf : TextPdf) (keywords : List String) (keyword : String) : Option Nat :=
  if keyword ∈ keywords
  then ((List.range pdf.length).filter (keywordOnPage pdf keyword)).max?
  else none

theorem inner_lookup (t : String) (v : Nat) :
    ∀ (keywords : List String) (kpm : List (String × Nat)) (key : String),
    lookupKey (keywords.foldl
      (fun kpm keyword =>
        if containsSub t keyword && (lookupKey kpm keyword).isNone
        then kpm ++ [(keyword, v)] else kpm) kpm) key
    = match lookupKey kpm key with
      | some w => some w
      | none => if key ∈ keywords ∧ containsSub t key = true then some v else none := by
  intro keywords
  induction keywords with
  | nil =>
    intro kpm key
    rcases h : lookupKey kpm key with _ | w <;> simp [h]
  | cons kw kws ih =>
    intro kpm key
    simp only [List.foldl_cons]
    by_cases hcond : (containsSub t kw && (lookupKey kpm kw).isNone) = true
    · rw [if_pos hcond, ih]
      obtain ⟨hct, hnone⟩ : containsSub t kw = true ∧ (lookupKey kpm kw).isNone = true := by
        simpa using hcond
      rcases hkpm : lookupKey kpm key with _ | w
      · by_cases hkey : kw = key
        · subst hkey
          rw [lookupKey_append_none kpm [(kw, v)] kw hkpm]
          simp [lookupKey, hkpm, hct]
        · have hne : lookupKey (kpm ++ [(kw, v)]) key = none := by
            rw [lookupKey_append_none kpm [(kw, v)] key hkpm]
            simp [lookupKey, hkey]
          have hmem : ¬ key = kw := fun h => hkey h.symm
          simp [hne, hkpm, List.mem_cons, hmem]
      · rw [lookupKey_append_some kpm [(kw, v)] key w hkpm]
    · rw [if_neg hcond, ih]
      rcases hkpm : lookupKey kpm key with _ | w
      · by_cases hkey : kw = key
        · subst hkey
          have hisnone : (lookupKey kpm kw).isNone = true := by simp [hkpm]
          have hcf : containsSub t kw = false := by
            rcases hb : containsSub t kw with _ | _
            · rfl
            · exact absurd (by simp [hb, hisnone]) hcond
          simp [hkpm, hcf]
        · have hmem : ¬ key = kw := fun h => hkey h.symm
          simp [hkpm, List.mem_cons, hmem]
      · simp [hkpm]

theorem locatorStep_none (keywords : List String) (n : Nat) (kpm : List (String × Nat))
    (i : Nat) : locatorStep keywords n kpm (i, none) = kpm := rfl

theorem locatorStep_empty (keywords : List String) (n : Nat) (kpm : List (String × Nat))
    (i : Nat) : locatorStep keywords n kpm (i, some "") = kpm := rfl

theorem locatorStep_text (keywords : List String) (n : Nat) (kpm : List (String × Nat))
    (i : Nat) (text : String) (htext : ¬ text = "") :
    locatorStep keywords n kpm (i, some text)
      = keywords.foldl
          (fun kpm keyword =>
            if containsSub text keyword && (lookupKey kpm keyword).isNone
            then kpm ++ [(keyword, n - 1 - i)] else kpm)
          kpm := by
  simp [locatorStep, htext]

theorem outer_lookup (keywords : List String) (n : Nat) :
    ∀ (L : List (Nat × Option String)) (kpm : List (String × Nat)) (key : String),
    lookupKey (L.foldl (locatorStep keywords n) kpm) key
    = match lookupKey kpm key with
      | some w => some w
      | none =>
        if key ∈ keywords
        then (L.find? (fun ip => pageHit key ip.2)).map (fun ip => n - 1 - ip.1)
        else none := by
  intro L
  induction L with
  | nil =>
    intro kpm key
    rcases h : lookupKey kpm key with _ | w <;> simp [h]
  | cons ip L ihL =>
    obtain ⟨i, otext⟩ := ip
    intro kpm key
    simp only [List.foldl_cons]
    rcases otext with _ | text
    · rw [locatorStep_none, ihL]
      rcases h : lookupKey kpm key with _ | w
      · rw [List.find?_cons_of_neg _ (by simp [pageHit])]
      · rfl
    · by_cases htext : text = ""
      · subst htext
        rw [locatorStep_empty, ihL]
        rcases h : lookupKey kpm key with _ | w
        · rw [List.find?_cons_of_neg _ (by simp [pageHit])]
        · rfl
      · rw [locatorStep_text keywords n kpm i text htext, ihL, inner_lookup]
        rcases h : lookupKey kpm key with _ | w
        · by_cases hmem : key ∈ keywords
          · by_cases hc : containsSub text key = true
            · rw [if_pos ⟨hmem, hc⟩,
                List.find?_cons_of_pos _ (by simp [pageHit, htext, hc])]
              simp [hmem]
            · rw [if_neg (by intro hx; exact hc hx.2),
                List.find?_cons_of_neg _ (by simp [pageHit, htext, hc])]
          · rw [if_neg (by intro hx; exact hmem hx.1), if_neg hmem, if_neg hmem]
        · rfl

theorem find_keywords_lookup (pdf : TextPdf) (keywords : List String) (key : String) :
    lookupKey (find_keywords_in_pdf pdf keywords) key
    = if key ∈ keywords
      then ((pdf.reverse.enum).find? (fun ip => pageHit key ip.2)).map
            (fun ip => pdf.length - 1 - ip.1)
      else none := by
  unfold find_keywords_in_pdf
  rw [outer_lookup keywords pdf.length pdf.reverse.enum [] key]
  rfl

theorem find?_enumFrom_map_fst {α : Type} (q : α → Bool) :
    ∀ (l : List α) (k : Nat),
    ((List.enumFrom k l).find? (fun p => q p.2)).map Prod.fst = List.findIdx? q l k := by
  intro l
  induction l with
  | nil => intro k; simp
  | cons a l ih =>
    intro k
    rw [List.enumFrom_cons, List.findIdx?_cons]
    by_cases hq : q a = true
    · rw [List.find?_cons_of_pos _ (by simpa using hq), if_pos hq]
      rfl
    · rw [List.find?_cons_of_neg _ (by simpa using hq), if_neg hq, ih]

theorem max?_concat_of_le (l : List Nat) (x : Nat) (h : ∀ y ∈ l, y ≤ x) :
    (l ++ [x]).max? = some x := by
  rw [List.max?_eq_some_iff (fun a => le_refl a) (fun a b => max_choice a b)
    (fun a b c => max_le_iff)]
  constructor
  · simp
  · intro b hb
    rcases List.mem_append.mp hb with hb | hb
    · exact h b hb
    · simp at hb
      omega

theorem findIdx?_reverse_max? (key : String) :
    ∀ pdf : TextPdf,
    (pdf.reverse.findIdx? (pageHit key)).map (fun j => pdf.length - 1 - j)
      = ((List.range pdf.length).filter (keywordOnPage pdf key)).max? := by
  intro pdf
  induction pdf using List.reverseRecOn with
  | nil => simp
  | append_singleton l x ih =>
    rw [List.reverse_append]
    simp only [List.reverse_singleton, List.singleton_append]
    rw [List.findIdx?_cons]
    rw [List.length_append, List.length_singleton, List.range_succ, List.filter_append]
    have hcong : (List.range l.length).filter (keywordOnPage (l ++ [x]) key)
        = (List.range l.length).filter (keywordOnPage l key) := by
      apply List.filter_congr
      intro i hi
      have hlt : i < l.length := List.mem_range.mp hi
      unfold keywordOnPage
      rw [List.getD_eq_getElem?_getD, List.getD_eq_getElem?_getD, List.getElem?_append,
        if_pos hlt]
    have hlast : keywordOnPage (l ++ [x]) key l.length = pageHit key x := by
      unfold keywordOnPage
      rw [List.getD_eq_getElem?_getD, List.getElem?_concat_length]
      rfl
    by_cases hq : pageHit key x = true
    · rw [if_pos hq]
      have hfilterx : [l.length].filter (keywordOnPage (l ++ [x]) key) = [l.length] := by
        simp [List.filter_cons, hlast, hq]
      rw [hcong, hfilterx, max?_concat_of_le]
      · simp
      · intro y hy
        have := List.mem_range.mp (List.mem_of_mem_filter hy)
        omega
    · rw [if_neg hq]
      have hfilterx : [l.length].filter (keywordOnPage (l ++ [x]) key) = [] := by
        simp [List.filter_cons, hlast, hq]
      rw [hcong, hfilterx, List.append_nil]
      rw [show (1 : Nat) = 0 + 1 from rfl, List.findIdx?_succ]
      rw [Option.map_map]
      have hfun : ((fun j => l.length + (0 + 1) - 1 - j) ∘ (fun j => j + 1))
          = (fun j => l.length - 1 - j) := by
        funext j
        simp only [Function.comp]
        omega
      rw [hfun]
      exact ih

/-- Claim C3: `find_keywords_in_pdf` maps each requested label occurring in
some page's extracted text (exact, case-sensitive substring) to the highest
zero-based page index on which it occurs — the back-to-front scan records a
label once and never overwrites it — and omits, rather than errs on, labels
found on no page. -/
theorem c3_keyword_locator (pdf : TextPdf) (keywords : List String) (keyword : String) :
    lookupKey (find_keywords_in_pdf pdf keywords) keyword
      = lastKeywordPage pdf keywords keyword := by
  rw [find_keywords_lookup]
  unfold lastKeywordPage
  by_cases hmem : keyword ∈ keywords
  · rw [if_pos hmem, if_pos hmem]
    have h1 : ((pdf.reverse.enum).find? (fun ip => pageHit keyword ip.2)).map
        (fun ip => pdf.length - 1 - ip.1)
        = (((pdf.reverse.enum).find? (fun ip => pageHit keyword ip.2)).map Prod.fst).map
          (fun j => pdf.length - 1 - j) := by
      rw [Option.map_map]
      rfl
    rw [h1, show pdf.reverse.enum = List.enumFrom 0 pdf.reverse from rfl,
      find?_enumFrom_map_fst]
    exact findIdx?_reverse_max? keyword pdf
  · rw [if_neg hmem, if_neg hmem]

/-- The two Qt signals a `Worker` run can emit. -/
inductive WorkerSignal where
  | processFinished (path : Path)
  | errorOccurred (message : String)
  deriving DecidableEq

/-- `Worker.run` from `worker.py`: inside one try block, run `_create_pdf`,
`_find_keywords` and `_insert_pdfs` in order and emit `process_finished` with
the output path; the except clause catches any stage's exception and emits
`error_occurred` with its message.  Stage outcomes are parameters (an
`Except.error` models a raised exception); the result lists the signals the
run emits, in order. -/
def workerRun (createRes : Except String Unit) (findRes : Except String (List (String × Nat)))
    (insertRes : List (String × Nat) → Except String Unit) (pdfPath : Path) :
    List WorkerSignal :=
  match createRes with
  | .error e => [.errorOccurred e]
  | .ok _ =>
    match findRes with
    | .error e => [.errorOccurred e]
    | .ok kpm =>
      match insertRes kpm with
      | .error e => [.errorOccurred e]
      | .ok _ => [.processFinished pdfPath]

/-- The message of the first failing stage, if any stage fails. -/
def firstFailure (createRes : Except String Unit) (findRes : Except String (List (String × Nat)))
    (insertRes : List (String × Nat) → Except String Unit) : Option String :=
  match createRes with
  | .error e => some e
  | .ok _ =>
    match findRes with
    | .error e => some e
    | .ok kpm =>
      match insertRes kpm with
      | .error e => some e
      | .ok _ => none

/-- Claim C7: each Worker run emits exactly one terminal signal —
`process_finished` with the output path when conversion, keyword location and
insertion all succeed, otherwise `error_occurred` with the first failure's
message; never both, never neither, with every stage exception caught at this
boundary. -/
theorem c7_worker_single_terminal_signal (createRes : Except String Unit)
    (findRes : Except String (List (String × Nat)))
    (insertRes : List (String × Nat) → Except String Unit) (pdfPath : Path) :
    (workerRun createRes findRes insertRes pdfPath).length = 1
    ∧ (match firstFailure createRes findRes insertRes with
       | none => workerRun createRes findRes insertRes pdfPath
           = [WorkerSignal.processFinished pdfPath]
       | some e => workerRun createRes findRes insertRes pdfPath
           = [WorkerSignal.errorOccurred e]) := by
  rcases createRes with e | u
  · exact ⟨rfl, rfl⟩
  · rcases findRes with e | kpm
    · exact ⟨rfl, rfl⟩
    · rcases h : insertRes kpm with e | u
      · exact ⟨by simp [workerRun, h], by simp [workerRun, firstFailure, h]⟩
      · exact ⟨by simp [workerRun, h], by simp [workerRun, firstFailure, h]⟩

/-- Calls `create_pdf_from_word` makes on the external Word engine session,
in order. -/
inductive WordEvent where
  | dispatchWord
  | disableAlerts
  | openDocument
  | showRevisionsOff
  | printRevisionsOff
  | saveAsPdf
  | closeDocument
  | quitWord
  | collectGarbage
  deriving DecidableEq

/-- `create_pdf_from_word` from `pdf_inserter.py`: dispatch Word, disable
alerts, then in a try block open the document, switch revision display off,
save as PDF and close; the except clause closes the document if it was opened
and re-raises as `RuntimeError`; the finally clause quits Word and collects
garbage on every path.  The outcomes of `Documents.Open` and `SaveAs` (the
engine calls that can raise) are parameters; the result pairs the Python-level
outcome with the trace of engine calls made. -/
def create_pdf_from_word (openRes saveRes : Except String Unit) :
    Except String Unit × List WordEvent :=
  match openRes with
  | .error e =>
    (.error e,
     [.dispatchWord, .disableAlerts, .quitWord, .collectGarbage])
  | .ok _ =>
    match saveRes with
    | .error e =>
      (.error e,
       [.dispatchWord, .disableAlerts, .openDocument, .showRevisionsOff, .printRevisionsOff,
        .closeDocument, .quitWord, .collectGarbage])
    | .ok _ =>
      (.ok (),
       [.dispatchWord, .disableAlerts, .openDocument, .showRevisionsOff, .printRevisionsOff,
        .saveAsPdf, .closeDocument, .quitWord, .collectGarbage])

/-- Claim C8: on every execution of `create_pdf_from_word` — normal return or
raise, whatever the open and save outcomes — `word.Quit()` is invoked before
the call completes. -/
theorem c8_word_session_always_quit (openRes saveRes : Except String Unit) :
    WordEvent.quitWord ∈ (create_pdf_from_word openRes saveRes).2 := by
  rcases openRes with e | u
  · simp [create_pdf_from_word]
  · rcases saveRes with e | u <;> simp [create_pdf_from_word]

/-- `merge_pdfs_in_folder` from `pdf_inserter.py`: `entries` are the folder's
file names (`folder.glob` is non-recursive, so one flat listing) and `fs`
gives each file's pages.  Filter for the `*.pdf` pattern, sort ascending, and
if the list is empty return with no output; otherwise append every file's
pages into the merger and write them out.  `none` models that no output file
is written. -/
def merge_pdfs_in_folder (entries : List String) (fs : String → List Page) :
    Option (List Page) :=
  let pdf_files := (entries.filter (fun nm => nm.endsWith ".pdf")).insertionSort
    (fun a b => a ≤ b)
  if pdf_files = [] then none
  else some (pdf_files.foldl (fun acc f => acc ++ fs f) [])

/-- Claim C9: `merge_pdfs_in_folder` concatenates the pages of the directory's
PDF files, sorted in ascending lexicographic filename order (the sorted list
is an ordered permutation of the PDF entries), into one output; with no PDF
files it writes no output and raises no error. -/
theorem c9_merge_sorted_concat (entries : List String) (fs : String → List Page) :
    ((entries.filter (fun nm => nm.endsWith ".pdf")).insertionSort
      (fun a b => a ≤ b)).Sorted (· ≤ ·)
    ∧ List.Perm
        ((entries.filter (fun nm => nm.endsWith ".pdf")).insertionSort (fun a b => a ≤ b))
        (entries.filter (fun nm => nm.endsWith ".pdf"))
    ∧ (merge_pdfs_in_folder entries fs = none
        ↔ entries.filter (fun nm => nm.endsWith ".pdf") = [])
    ∧ merge_pdfs_in_folder entries fs
        = (if (entries.filter (fun nm => nm.endsWith ".pdf")).insertionSort
              (fun a b => a ≤ b) = []
           then none
           else some ((((entries.filter (fun nm => nm.endsWith ".pdf")).insertionSort
              (fun a b => a ≤ b)).map fs).flatten)) := by
  refine ⟨List.sorted_insertionSort _ _, List.perm_insertionSort _ _, ?_, ?_⟩
  · simp only [merge_pdfs_in_folder]
    have hperm := List.perm_insertionSort (fun a b : String => a ≤ b)
      (entries.filter (fun nm => nm.endsWith ".pdf"))
    by_cases hS : (entries.filter (fun nm => nm.endsWith ".pdf")).insertionSort
        (fun a b => a ≤ b) = []
    · rw [if_pos hS]
      constructor
      · intro _
        rw [hS] at hperm
        exact hperm.symm.eq_nil
      · intro _
        rfl
    · rw [if_neg hS]
      constructor
      · intro hcontra
        exact absurd hcontra (by simp)
      · intro hfil
        apply absurd hS
        simp only [not_not]
        rw [hfil]
        rfl
  · simp only [merge_pdfs_in_folder]
    by_cases hS : (entries.filter (fun nm => nm.endsWith ".pdf")).insertionSort
        (fun a b => a ≤ b) = []
    · rw [if_pos hS, if_pos hS]
    · rw [if_neg hS, if_neg hS]
      apply congrArg
      have heq : ((entries.filter (fun nm => nm.endsWith ".pdf")).insertionSort
          (fun a b => a ≤ b)).foldl (fun acc f => acc ++ fs f) []
          = writeInsertFiles fs ((entries.filter (fun nm => nm.endsWith ".pdf")).insertionSort
          (fun a b => a ≤ b)) [] := rfl
      rw [heq, writeInsertFiles_eq]
      simp [insertSetPages]

end PssReport
